import Mathlib

/-!
Verification of the code-to-music mapping pipeline and MIDI encoder of the
code2score repository.

The embedding covers:
  * `src/components/utils/musicMapper.js` — key/scale resolution
    (`getScaleNotes`), scale snapping (`constrainNoteToKey`), indentation
    dynamics (`getVelocityAndOctaveByIndent`);
  * `src/components/CodeToMusicPlayer.jsx` — `midiToNoteName`, the
    per-line pitch computation and the duration rule of `analyzeCode`;
  * `src/components/utils/midiGenerator.js` — `generateMIDI`, `intToBytes`,
    `varLen`.

External library calls (the tonal `Note.get` / `Scale.get` and the Tone.js
time/frequency conversions) are not repository code; where a claim depends on
them they are modelled from the spec, as marked in the doc comments.
JavaScript numbers are modelled by `ℕ`/`ℤ`/`ℚ` (exact arithmetic); bitwise
shifts match JavaScript's 32-bit semantics on the value ranges stated in the
theorems.
-/

namespace Code2Score

/-- A note-name spelling: a letter (`0` = C, `1` = D, `2` = E, `3` = F,
`4` = G, `5` = A, `6` = B) together with an alteration in semitones
(`+1` per sharp, `-1` per flat); e.g. F♯ is `⟨3, 1⟩` and B♭ is `⟨6, -1⟩`. -/
structure NoteName where
  letter : Fin 7
  alt : ℤ
  deriving DecidableEq, Repr

/-- Chromatic position of each natural letter: C D E F G A B. -/
def natChroma (l : Fin 7) : ℕ := [0, 2, 4, 5, 7, 9, 11].getD l.val 0

/-- The chroma (pitch class as a residue mod 12) of a spelled note name,
as computed by tonal's `Note.get(n).chroma`. -/
def chroma (n : NoteName) : ZMod 12 := (natChroma n.letter : ZMod 12) + (n.alt : ZMod 12)

/-- Modelled from the spec: a key label is either a parseable tonic (a letter
with an alteration), optionally carrying the minor suffix "m" (as in "Am"),
or an arbitrary unrecognized/malformed string. -/
inductive KeyLabel where
  | tonic (letter : Fin 7) (alt : ℤ) (minorSuffix : Bool)
  | unknown (raw : String)

/-- The test `key.toLowerCase().includes('m')` of `getScaleNotes` (the
explicit list `['Am','Em','Dm','Bm']` is subsumed by it): a parsed tonic
label contains an `m` exactly when it carries the minor suffix. -/
def keyIsMinor : KeyLabel → Bool
  | .tonic _ _ m => m
  | .unknown raw => raw.toLower.contains 'm'

/-- Semitone steps of the major scale (W-W-H-W-W-W-H). -/
def majorSteps : List ℕ := [0, 2, 4, 5, 7, 9, 11]

/-- Semitone steps of the natural minor scale (W-H-W-W-H-W-W). -/
def minorSteps : List ℕ := [0, 2, 3, 5, 7, 8, 10]

/-- Modelled from the spec: tonal's `Scale.get` — standard diatonic
construction, one letter per scale degree, each degree's alteration chosen
so that its chroma sits at the required semitone distance from the tonic.
An unrecognized label yields an empty scale (which `getScaleNotes` then
replaces by its fallback). -/
def scaleGet (key : KeyLabel) (minor : Bool) : List NoteName :=
  match key with
  | .unknown _ => []
  | .tonic l a _ =>
    let steps := if minor then minorSteps else majorSteps
    let tonicChroma : ℤ := (natChroma l : ℤ) + a
    (List.finRange 7).map (fun i =>
      let letter := l + i
      ⟨letter, (tonicChroma + (steps.getD i.val 0 : ℤ) - (natChroma letter : ℤ) + 6) % 12 - 6⟩)

/-- The seven natural pitch classes, the fallback scale of `getScaleNotes`. -/
def naturals : List NoteName := [⟨0, 0⟩, ⟨1, 0⟩, ⟨2, 0⟩, ⟨3, 0⟩, ⟨4, 0⟩, ⟨5, 0⟩, ⟨6, 0⟩]

/-- The `flatToSharp` table of `getScaleNotes`: exactly the five single-flat
spellings Db, Eb, Gb, Ab, Bb are replaced by their enharmonic sharp
spellings C#, D#, F#, G#, A#; every other name is returned unchanged. -/
def flatToSharp (n : NoteName) : NoteName :=
  if n.alt = -1 ∧ (n.letter = 1 ∨ n.letter = 2 ∨ n.letter = 4 ∨ n.letter = 5 ∨ n.letter = 6)
  then ⟨n.letter - 1, 1⟩ else n

/-- Embedding of `getScaleNotes` (musicMapper.js): resolve the scale for the
key (major unless the label contains an `m`), fall back to the seven
naturals when the lookup produced nothing, and normalize flat spellings to
sharps. The `try/catch` of the source makes the function total. -/
def getScaleNotes (key : KeyLabel) : List NoteName :=
  let isMinor := keyIsMinor key
  let scale := scaleGet key isMinor
  if scale.isEmpty then naturals else scale.map flatToSharp

/-- The chromatic distance computed inside `constrainNoteToKey`:
`Math.min(Math.abs(target - chroma), 12 - Math.abs(target - chroma))`. -/
def chromaDist (target c : ZMod 12) : ℤ :=
  min |(target.val : ℤ) - (c.val : ℤ)| (12 - |(target.val : ℤ) - (c.val : ℤ)|)

/-- Result of `constrainNoteToKey`. The JavaScript function returns a
string; we keep the in-scale name and the octave as components.
`passthrough` is the `scaleChromas.length === 0` branch (the input string is
returned unchanged) and `undefinedName` the impossible branch in which
`scaleNotes.find` returns `undefined`. -/
inductive SnapResult where
  | inScale (name : NoteName) (octave : ℤ)
  | passthrough
  | undefinedName (octave : ℤ)
  deriving DecidableEq, Repr

/-- The octave component of a snap result, when one was produced. -/
def SnapResult.octaveOf : SnapResult → Option ℤ
  | .inScale _ o => some o
  | .passthrough => none
  | .undefinedName o => some o

/-- The name component of a snap result, when one was produced. -/
def SnapResult.nameOf : SnapResult → Option NoteName
  | .inScale n _ => some n
  | .passthrough => none
  | .undefinedName _ => none

/-- The closest-chroma search loop of `constrainNoteToKey`: starting from
`closestChroma = scaleChromas[0]`, `minDistance = 12`, every scale chroma at
a strictly smaller `chromaDist` replaces the current candidate. -/
def closestScaleChroma (noteChroma : ZMod 12) (scaleChromas : List (ZMod 12)) : ZMod 12 :=
  (scaleChromas.foldl
    (fun acc c => if chromaDist noteChroma c < acc.2 then (c, chromaDist noteChroma c) else acc)
    (scaleChromas.headD 0, (12 : ℤ))).1

/-- Embedding of `constrainNoteToKey` (musicMapper.js) on a note already
parsed by tonal's `Note.get` (external to the repository), i.e. on its
`chroma` and `octave` fields. The final octave is `note.octave || 4`: the
JavaScript `||` replaces a zero octave by 4. The `filter(c !== undefined)`
of the source is the identity here since `chroma` is total, and the
`closest` loop is split off as `closestScaleChroma`. -/
def constrainNoteToKey (noteChroma : ZMod 12) (noteOctave : ℤ) (key : KeyLabel) : SnapResult :=
  if ((getScaleNotes key).map chroma).isEmpty then .passthrough
  else
    match (getScaleNotes key).find? (fun n =>
        decide (chroma n = closestScaleChroma noteChroma ((getScaleNotes key).map chroma))) with
    | some n => .inScale n (if noteOctave = 0 then 4 else noteOctave)
    | none => .undefinedName (if noteOctave = 0 then 4 else noteOctave)

/-! ### Scale resolver lemmas -/

theorem chroma_flatToSharp (n : NoteName) : chroma (flatToSharp n) = chroma n := by
  obtain ⟨l, a⟩ := n
  unfold flatToSharp
  split
  · rename_i h
    obtain ⟨ha, hl⟩ := h
    simp only at ha hl
    subst ha
    rcases hl with h | h | h | h | h <;> subst h <;> decide
  · rfl

theorem intCast_emod_twelve (x : ℤ) : ((x % 12 : ℤ) : ZMod 12) = (x : ZMod 12) := by
  rw [Int.emod_def]
  push_cast
  rw [show (12 : ZMod 12) = 0 from by decide]
  ring

theorem scaleGet_chromas (l : Fin 7) (a : ℤ) (m : Bool) (minor : Bool) :
    (scaleGet (.tonic l a m) minor).map chroma
      = (List.finRange 7).map (fun i =>
          ((((natChroma l : ℤ) + a
              + ((if minor then minorSteps else majorSteps).getD i.val 0 : ℤ)) : ℤ) : ZMod 12)) := by
  simp only [scaleGet, List.map_map]
  refine List.map_congr_left (fun i _ => ?_)
  simp only [Function.comp_apply, chroma]
  rw [show ∀ y : ℤ, ((y - 6 : ℤ) : ZMod 12) = ((y : ℤ) : ZMod 12) - 6 from fun y => by push_cast; ring]
  rw [intCast_emod_twelve]
  push_cast
  ring

theorem steps_cast_injective (minor : Bool) :
    Function.Injective (fun i : Fin 7 =>
      (((if minor then minorSteps else majorSteps).getD i.val 0 : ℤ) : ZMod 12)) := by
  cases minor <;> decide

theorem scaleGet_tonic_length (l : Fin 7) (a : ℤ) (m : Bool) (minor : Bool) :
    (scaleGet (.tonic l a m) minor).length = 7 := by
  simp [scaleGet]

theorem getScaleNotes_length (k : KeyLabel) : (getScaleNotes k).length = 7 := by
  cases k with
  | unknown s => simp [getScaleNotes, scaleGet, naturals]
  | tonic l a m =>
    have h := scaleGet_tonic_length l a m (keyIsMinor (.tonic l a m))
    simp only [getScaleNotes]
    rw [if_neg, List.length_map, h]
    intro hemp
    rw [List.isEmpty_iff] at hemp
    rw [hemp] at h
    simp at h

theorem getScaleNotes_chromas (k : KeyLabel) :
    ((getScaleNotes k).map chroma).Nodup := by
  cases k with
  | unknown s =>
    have : getScaleNotes (.unknown s) = naturals := by simp [getScaleNotes, scaleGet]
    rw [this]
    decide
  | tonic l a m =>
    have h := scaleGet_tonic_length l a m (keyIsMinor (.tonic l a m))
    simp only [getScaleNotes]
    rw [if_neg]
    · rw [List.map_map,
        show chroma ∘ flatToSharp = chroma from funext fun n => chroma_flatToSharp n,
        scaleGet_chromas]
      refine List.Nodup.map ?_ (List.nodup_finRange 7)
      intro i j hij
      simp only at hij
      refine steps_cast_injective (keyIsMinor (.tonic l a m)) ?_
      show (((if keyIsMinor (.tonic l a m) = true then minorSteps else majorSteps).getD i.val 0 : ℤ)
          : ZMod 12) = _
      push_cast at hij ⊢
      linear_combination hij
    · intro hemp
      rw [List.isEmpty_iff] at hemp
      rw [hemp] at h
      simp at h

/-! ### Pitch mapper lemmas -/

theorem foldl_closest_mem (t : ZMod 12) (cs : List (ZMod 12)) (acc : ZMod 12 × ℤ) :
    (cs.foldl (fun acc c =>
        if chromaDist t c < acc.2 then (c, chromaDist t c) else acc) acc).1 = acc.1 ∨
    (cs.foldl (fun acc c =>
        if chromaDist t c < acc.2 then (c, chromaDist t c) else acc) acc).1 ∈ cs := by
  induction cs generalizing acc with
  | nil => left; rfl
  | cons c cs ih =>
    simp only [List.foldl_cons]
    rcases ih (if chromaDist t c < acc.2 then (c, chromaDist t c) else acc) with h | h
    · by_cases hc : chromaDist t c < acc.2
      · right
        rw [h, if_pos hc]
        exact List.mem_cons_self c cs
      · left
        rw [h, if_neg hc]
    · right
      exact List.mem_cons_of_mem c h

theorem closestScaleChroma_mem (c : ZMod 12) (cs : List (ZMod 12)) (hcne : cs ≠ []) :
    closestScaleChroma c cs ∈ cs := by
  rcases foldl_closest_mem c cs (cs.headD 0, (12 : ℤ)) with h | h
  · rw [closestScaleChroma, h]
    obtain ⟨x, xs, hxs⟩ := List.exists_cons_of_ne_nil hcne
    rw [hxs]
    exact List.mem_cons_self x xs
  · exact h

theorem constrain_inScale (c : ZMod 12) (o : ℤ) (k : KeyLabel) :
    ∃ n ∈ getScaleNotes k,
      constrainNoteToKey c o k = .inScale n (if o = 0 then 4 else o) := by
  have h7 := getScaleNotes_length k
  have hne : getScaleNotes k ≠ [] := by
    intro h
    rw [h] at h7
    simp at h7
  have hcne : (getScaleNotes k).map chroma ≠ [] := by
    simpa using hne
  have hmem : closestScaleChroma c ((getScaleNotes k).map chroma)
      ∈ (getScaleNotes k).map chroma := closestScaleChroma_mem c _ hcne
  obtain ⟨n, hn, hchroma⟩ := List.mem_map.mp hmem
  unfold constrainNoteToKey
  rw [if_neg (by simpa [List.isEmpty_iff] using hcne)]
  cases hfind : (getScaleNotes k).find? (fun n =>
      decide (chroma n = closestScaleChroma c ((getScaleNotes k).map chroma))) with
  | none =>
    exfalso
    have := List.find?_eq_none.mp hfind n hn
    simp only [decide_eq_true_eq] at this
    exact this hchroma
  | some n' =>
    exact ⟨n', List.mem_of_find?_eq_some hfind, rfl⟩

/-! ### Claims C1 – C3 -/

/-- C1 (counterexample): on the valid input note C0 — chroma 0, octave 0 —
under key C major, `constrainNoteToKey` returns octave 4, not the input
octave 0: the JavaScript fallback `note.octave || 4` treats octave 0 as
falsy, so the claim "the octave component is identical to the input note's
octave … including when the input octave is 0" fails. -/
theorem constrain_octave_zero_cex :
    (constrainNoteToKey 0 0 (KeyLabel.tonic 0 0 false)).octaveOf = some 4 ∧
    (constrainNoteToKey 0 0 (KeyLabel.tonic 0 0 false)).octaveOf ≠ some 0 := by
  decide

/-- C1 (amended): for every input pitch class and key label, snapping
preserves the input octave whenever that octave is nonzero; an input octave
of exactly 0 is replaced by 4 (shown by the counterexample). -/
theorem constrain_preserves_nonzero_octave (c : ZMod 12) (o : ℤ) (k : KeyLabel)
    (h : o ≠ 0) : (constrainNoteToKey c o k).octaveOf = some o := by
  obtain ⟨n, _, heq⟩ := constrain_inScale c o k
  rw [heq, SnapResult.octaveOf, if_neg h]

/-- C1 (witness): the amended theorem at the concrete input chroma 0,
octave 5, key C major. -/
theorem constrain_preserves_nonzero_octave_witness :
    (constrainNoteToKey 0 5 (KeyLabel.tonic 0 0 false)).octaveOf = some 5 :=
  constrain_preserves_nonzero_octave 0 5 (KeyLabel.tonic 0 0 false) (by decide)

/-- C2: for every pitch class (with any octave) and every key label, the
pitch class returned by `constrainNoteToKey` is a member of the scale
returned by `getScaleNotes` for that key (a 7-element list by
`getScaleNotes_seven_distinct`). -/
theorem constrain_result_in_scale (c : ZMod 12) (o : ℤ) (k : KeyLabel) :
    ∃ n oct, constrainNoteToKey c o k = .inScale n oct ∧ n ∈ getScaleNotes k := by
  obtain ⟨n, hn, heq⟩ := constrain_inScale c o k
  exact ⟨n, _, heq, hn⟩

/-- C3: for every key label — including unrecognized, malformed or empty
ones — `getScaleNotes` returns exactly 7 pitch classes with pairwise
distinct chromas (and, being a total function, never raises); on any lookup
failure it returns exactly the seven naturals C, D, E, F, G, A, B. -/
theorem getScaleNotes_seven_distinct (k : KeyLabel) :
    (getScaleNotes k).length = 7 ∧ ((getScaleNotes k).map chroma).Nodup ∧
    (∀ s : String, getScaleNotes (.unknown s) = naturals) :=
  ⟨getScaleNotes_length k, getScaleNotes_chromas k,
   fun _ => by simp [getScaleNotes, scaleGet]⟩

/-! ### Line analyzer: indentation dynamics, pitch computation, duration -/

/-- Characters matched by the JavaScript regex class `\s` (the ASCII ones;
the indentation of source lines only ever uses spaces and tabs). -/
def jsWhitespace (c : Char) : Bool :=
  c == ' ' || c == '\t' || c == '\n' || c == '\r' || c == '\x0b' || c == '\x0c'

/-- Embedding of `getVelocityAndOctaveByIndent` (musicMapper.js): the empty
line (falsy in JavaScript) yields `(0.5, 0)`; otherwise `indentLevel` is
the length of the leading-whitespace match `/^(\s*)/`, the velocity is
`Math.min(0.3 + indentLevel * 0.05, 1.0)` and the octave shift
`Math.floor(indentLevel / 4)`. -/
def getVelocityAndOctaveByIndent (line : String) : ℚ × ℕ :=
  if line = "" then (0.5, 0)
  else
    let indentLevel := (line.data.takeWhile jsWhitespace).length
    (min (0.3 + (indentLevel : ℚ) * 0.05) 1.0, indentLevel / 4)

/-- The sharp-spelled note-name table of `midiToNoteName`
(CodeToMusicPlayer.jsx) — in the source a single 12-entry array literal,
C chromatically up to B. -/
def noteNamesSharp : List String :=
  ["C", "C#", "D", "D#", "E", "F"] ++ ["F#", "G", "G#", "A", "A#", "B"]

/-- Embedding of `midiToNoteName` (CodeToMusicPlayer.jsx): out-of-range MIDI
numbers fall back to "C4"; otherwise the name is
`notes[midi % 12] + (Math.floor(midi / 12) - 1)`. -/
def midiToNoteName (midi : ℤ) : String :=
  if midi < 0 ∨ 127 < midi then "C4"
  else noteNamesSharp.getD (midi % 12).toNat "" ++ toString (midi / 12 - 1)

/-- The per-line MIDI number computed inside `analyzeCode`
(CodeToMusicPlayer.jsx): `basePitch = 60 + octaveShift * 12` plus
`pitchOffset = Math.min(Math.floor(length / 5), 12)`. -/
def midiNote (line : String) : ℤ :=
  60 + ((getVelocityAndOctaveByIndent line).2 : ℤ) * 12 + min ((line.length : ℤ) / 5) 12

/-- Embedding of the duration rule of `analyzeCode` (CodeToMusicPlayer.jsx):
`lastChar = line.slice(-1)` — the literal last character — then the
mutually-exclusive chain `'}' → '2n'`, `';' → '4n'`, `':' → '8n'`, default
`'4n'`. -/
def noteDuration (line : String) : String :=
  match line.data.getLast? with
  | some '\x7d' => "2n"
  | some ';' => "4n"
  | some ':' => "8n"
  | _ => "4n"

/-- Modelled from the spec's words, for comparison with `noteDuration`:
"inspect the last non-whitespace character of the line: `}` → half note,
`;` → quarter note, `:` → eighth note; any other character → quarter
note". -/
def specNoteDuration (line : String) : String :=
  match (line.data.reverse.dropWhile jsWhitespace).head? with
  | some '\x7d' => "2n"
  | some ';' => "4n"
  | some ':' => "8n"
  | _ => "4n"

/-- A line with 20 leading spaces and 60 further characters, deep and long
enough to push the computed MIDI number past 127. -/
def deepIndentLine : String := String.mk (List.replicate 20 ' ' ++ List.replicate 60 'x')

/-! ### Claims C5, C9, C10 -/

/-- C5 (counterexample): on the line "} " — a closing brace followed by
trailing whitespace — the code's duration (literal last character, here a
space) is the default quarter note "4n", while the spec's rule (last
non-whitespace character "}") demands the half note "2n". -/
theorem noteDuration_trailing_ws_cex :
    noteDuration "\x7d " = "4n" ∧ specNoteDuration "\x7d " = "2n" ∧
    noteDuration "\x7d " ≠ specNoteDuration "\x7d " := by
  decide

/-- C5 (amended): the duration is decided by the literal last character of
the line — `}` gives a half note, `;` a quarter, `:` an eighth, and any
other last character (in particular trailing whitespace, even after a `}`)
as well as the empty line yields the default quarter note. -/
theorem noteDuration_last_char (line : String) (c : Char) :
    noteDuration (line ++ "\x7d") = "2n" ∧
    noteDuration (line ++ ";") = "4n" ∧
    noteDuration (line ++ ":") = "8n" ∧
    noteDuration (line ++ " ") = "4n" ∧
    (c ≠ '\x7d' → c ≠ ';' → c ≠ ':' → noteDuration (line.push c) = "4n") ∧
    noteDuration "" = "4n" := by
  refine ⟨?_, ?_, ?_, ?_, ?_, rfl⟩
  pick_goal 5
  · intro h1 h2 h3
    unfold noteDuration
    rw [show (line.push c).data = line.data ++ [c] from rfl, List.getLast?_concat]
    split <;> simp_all
  all_goals
  · unfold noteDuration
    rw [String.data_append]
    rw [show (String.data _) = [_] from rfl, List.getLast?_concat]
    rfl

/-- C5 (witness): the amended theorem's default case at the concrete line
"ab" with last character `{` — the spec's own "simple line" scenario
character — gives the quarter note. -/
theorem noteDuration_last_char_witness :
    noteDuration ("ab".push '\x7b') = "4n" :=
  (noteDuration_last_char "ab" '\x7b').2.2.2.2.1 (by decide) (by decide) (by decide)

/-- C9: for every input line, the velocity returned by
`getVelocityAndOctaveByIndent` lies in `[0.3, 1.0]` and the octave shift is
nonnegative — no note is ever softer than velocity 0.3. -/
theorem getVelocityAndOctave_bounds (line : String) :
    (0.3 : ℚ) ≤ (getVelocityAndOctaveByIndent line).1 ∧
    (getVelocityAndOctaveByIndent line).1 ≤ 1.0 ∧
    0 ≤ (getVelocityAndOctaveByIndent line).2 := by
  unfold getVelocityAndOctaveByIndent
  split
  · norm_num
  · refine ⟨le_min (le_add_of_nonneg_right (by positivity)) (by norm_num),
      min_le_right _ _, Nat.zero_le _⟩

/-- C10: the per-line MIDI number is always at least 60; whenever it
exceeds 127 — which is reachable, e.g. on a 20-space-indented 80-character
line — `midiToNoteName` substitutes "C4"; and in all cases the pre-snapping
note name is a sharp-spelled table name followed by an octave ≥ 4. -/
theorem midiNote_range_and_fallback :
    (∀ line : String,
        60 ≤ midiNote line ∧
        (127 < midiNote line → midiToNoteName (midiNote line) = "C4") ∧
        (∃ (pc : String) (oct : ℤ), pc ∈ noteNamesSharp ∧ 4 ≤ oct ∧
          midiToNoteName (midiNote line) = pc ++ toString oct)) ∧
    127 < midiNote deepIndentLine := by
  constructor
  · intro line
    have h2 : (0 : ℤ) ≤ min ((line.length : ℤ) / 5) 12 :=
      le_min (by positivity) (by norm_num)
    have h60 : 60 ≤ midiNote line := by
      unfold midiNote
      omega
    refine ⟨h60, fun h => ?_, ?_⟩
    · unfold midiToNoteName
      rw [if_pos (Or.inr h)]
    · by_cases h127 : 127 < midiNote line
      · refine ⟨"C", 4, by decide, by norm_num, ?_⟩
        unfold midiToNoteName
        rw [if_pos (Or.inr h127)]
        decide
      · push_neg at h127
        have hnn := Int.emod_nonneg (midiNote line) (by norm_num : (12 : ℤ) ≠ 0)
        have hlt12 := Int.emod_lt_of_pos (midiNote line) (by norm_num : (0 : ℤ) < 12)
        have hidx : (midiNote line % 12).toNat < noteNamesSharp.length := by
          rw [show noteNamesSharp.length = 12 from rfl]
          omega
        refine ⟨noteNamesSharp.getD (midiNote line % 12).toNat "",
          midiNote line / 12 - 1, ?_, by omega, ?_⟩
        · rw [List.getD_eq_getElem _ _ hidx]
          exact List.getElem_mem hidx
        · unfold midiToNoteName
          rw [if_neg (by omega)]
  · decide

/-! ### MIDI encoder (midiGenerator.js) -/

/-- The `while (value > 0x7f)` loop of `varLen`: shift the value right by 7
and push `0x80 | (value & 0x7f)` (written `128 + value >>> 7 % 128`, which
is equal since the two summands occupy disjoint bits). -/
def varLenLoop (v : ℕ) (buffer : List ℕ) : List ℕ :=
  if h : 127 < v then varLenLoop (v >>> 7) (buffer ++ [128 + (v >>> 7) % 128]) else buffer
termination_by v
decreasing_by
  simp only [Nat.shiftRight_eq_div_pow]
  exact Nat.div_lt_self (by omega) (by norm_num)

/-- Embedding of `varLen` (midiGenerator.js): push the low 7 bits, run the
loop, reverse. JavaScript's `>>` is a 32-bit shift; the natural-number
model agrees with it for values below `2^31`. -/
def varLen (value : ℕ) : List ℕ := (varLenLoop value [value % 128]).reverse

/-- The byte groups pushed by `varLenLoop`, in push order. -/
def auxGroups (v : ℕ) : List ℕ :=
  if h : 127 < v then (128 + (v >>> 7) % 128) :: auxGroups (v >>> 7) else []
termination_by v
decreasing_by
  simp only [Nat.shiftRight_eq_div_pow]
  exact Nat.div_lt_self (by omega) (by norm_num)

/-- The MIDI variable-length-quantity decoder, written from the spec's
rules: 7 data bits per byte, big-endian bit order. -/
def decodeVLQ (bytes : List ℕ) : ℕ := bytes.foldl (fun acc b => acc * 128 + b % 128) 0

theorem shiftRight_seven_lt (v : ℕ) (h : 127 < v) : v >>> 7 < v := by
  simp only [Nat.shiftRight_eq_div_pow]
  exact Nat.div_lt_self (by omega) (by norm_num)

theorem varLenLoop_eq (v : ℕ) (buf : List ℕ) : varLenLoop v buf = buf ++ auxGroups v := by
  induction v using Nat.strong_induction_on generalizing buf with
  | _ v ih =>
    rw [varLenLoop, auxGroups]
    by_cases h : 127 < v
    · rw [dif_pos h, dif_pos h, ih (v >>> 7) (shiftRight_seven_lt v h)]
      simp
    · rw [dif_neg h, dif_neg h, List.append_nil]

theorem varLen_eq (v : ℕ) : varLen v = (auxGroups v).reverse ++ [v % 128] := by
  rw [varLen, varLenLoop_eq]
  simp

theorem auxGroups_ge (v : ℕ) : ∀ b ∈ auxGroups v, 128 ≤ b := by
  induction v using Nat.strong_induction_on with
  | _ v ih =>
    rw [auxGroups]
    by_cases h : 127 < v
    · rw [dif_pos h]
      intro b hb
      rcases List.mem_cons.mp hb with hb | hb
      · omega
      · exact ih (v >>> 7) (shiftRight_seven_lt v h) b hb
    · rw [dif_neg h]
      intro b hb
      exact absurd hb (List.not_mem_nil b)

theorem decodeVLQ_concat (xs : List ℕ) (b : ℕ) :
    decodeVLQ (xs ++ [b]) = decodeVLQ xs * 128 + b % 128 := by
  simp [decodeVLQ, List.foldl_append]

theorem decodeVLQ_auxGroups (v : ℕ) : decodeVLQ ((auxGroups v).reverse) = v >>> 7 := by
  induction v using Nat.strong_induction_on with
  | _ v ih =>
    rw [auxGroups]
    by_cases h : 127 < v
    · rw [dif_pos h, List.reverse_cons, decodeVLQ_concat,
        ih (v >>> 7) (shiftRight_seven_lt v h)]
      simp only [Nat.shiftRight_eq_div_pow]
      have h128 : (2 : ℕ) ^ 7 = 128 := by norm_num
      rw [h128]
      omega
    · rw [dif_neg h]
      simp only [List.reverse_nil, decodeVLQ, List.foldl_nil, Nat.shiftRight_eq_div_pow]
      omega

theorem decodeVLQ_varLen (n : ℕ) : decodeVLQ (varLen n) = n := by
  rw [varLen_eq, decodeVLQ_concat, decodeVLQ_auxGroups]
  simp only [Nat.shiftRight_eq_div_pow]
  have h128 : (2 : ℕ) ^ 7 = 128 := by norm_num
  rw [h128]
  omega

/-! ### Claim C4 -/

/-- C4: encoding a non-negative integer with `varLen` and decoding the
result by the MIDI variable-length-quantity rules yields the original
integer; the bound `n < 2^31` is the range on which the natural-number
model of JavaScript's 32-bit `>>` is exact. In particular the round-trip
holds for 0, 127, 128, 16383 and 16384 (see the witness). -/
theorem varLen_roundtrip (n : ℕ) (h : n < 2 ^ 31) : decodeVLQ (varLen n) = n :=
  decodeVLQ_varLen n

/-- C4 (witness): the round-trip at the five values named by the spec. -/
theorem varLen_roundtrip_witness :
    decodeVLQ (varLen 0) = 0 ∧ decodeVLQ (varLen 127) = 127 ∧
    decodeVLQ (varLen 128) = 128 ∧ decodeVLQ (varLen 16383) = 16383 ∧
    decodeVLQ (varLen 16384) = 16384 :=
  ⟨varLen_roundtrip 0 (by norm_num), varLen_roundtrip 127 (by norm_num),
   varLen_roundtrip 128 (by norm_num), varLen_roundtrip 16383 (by norm_num),
   varLen_roundtrip 16384 (by norm_num)⟩

/-- A note as consumed by `generateMIDI`. The Tone.js conversions applied
to the source's note objects are external to the repository and are folded
into the fields: `midiNumber` is `Tone.Frequency(note.noteName).toMidi()`,
`durationSeconds` is `Tone.Time(note.duration).toSeconds()`, and `velocity`
is the note's normalized velocity. -/
structure MidiNote where
  midiNumber : ℤ
  velocity : ℚ
  durationSeconds : ℚ
  deriving Repr

/-- Embedding of `intToBytes` (midiGenerator.js): big-endian bytes
`(num >> (i*8)) & 0xff` for `i = bytes-1 … 0` (exact for `num < 2^31`,
where JavaScript's 32-bit `>>` agrees with the natural-number shift; each
byte only depends on `num`'s low 32 bits anyway). -/
def intToBytes (num : ℕ) (bytes : ℕ) : List ℕ :=
  (List.range bytes).reverse.map (fun i => (num >>> (i * 8)) % 256)

/-- The big-endian value of a byte list, written from the spec's rule
"integer fields wider than one byte are encoded big-endian". -/
def beValue (bytes : List ℕ) : ℕ := bytes.foldl (fun acc b => acc * 256 + b) 0

/-- The header chunk of `generateMIDI`: "MThd", length 6, format 0,
1 track, division 96. -/
def headerBytes : List ℕ :=
  [0x4d, 0x54, 0x68, 0x64, 0x00, 0x00, 0x00, 0x06, 0x00, 0x00, 0x00, 0x01, 0x00, 0x60]

/-- JavaScript's coercion of a (possibly negative or large) integer into a
`Uint8Array` entry: reduction mod 256. -/
def toUint8 (z : ℤ) : ℕ := (z % 256).toNat

/-- `ticksPerSecond = ticksPerBeat / secondsPerBeat` with `ticksPerBeat =
96` and `secondsPerBeat = 60 / tempo`. -/
def ticksPerSecond (tempo : ℚ) : ℚ := 96 / (60 / tempo)

/-- The tempo meta-event: delta 0, `FF 51 03`, then
`Math.floor(60000000 / tempo)` on three big-endian bytes. -/
def tempoEventBytes (tempo : ℚ) : List ℕ :=
  [0x00, 0xff, 0x51, 0x03] ++ intToBytes (⌊(60000000 : ℚ) / tempo⌋).toNat 3

/-- `durationTicks = Math.floor(Tone.Time(duration).toSeconds() *
ticksPerSecond)` (nonnegative for the nonnegative durations Tone
produces). -/
def durationTicks (tempo : ℚ) (n : MidiNote) : ℕ :=
  (⌊n.durationSeconds * ticksPerSecond tempo⌋).toNat

/-- The Note-On event of one note: delta `varLen(currentTime)`, status
`0x90`, note number, velocity byte `Math.floor(velocity * 100)` (wrapped
into a `Uint8Array` entry). -/
def noteOnBytes (n : MidiNote) (currentTime : ℕ) : List ℕ :=
  varLen currentTime ++ [0x90, toUint8 n.midiNumber, toUint8 ⌊n.velocity * 100⌋]

/-- The Note-Off event of one note: delta `varLen(durationTicks)`, status
`0x80`, note number, release velocity `0x40`. -/
def noteOffBytes (tempo : ℚ) (n : MidiNote) : List ℕ :=
  varLen (durationTicks tempo n) ++ [0x80, toUint8 n.midiNumber, 0x40]

/-- The `notes.forEach` loop of `generateMIDI`: each note appends its
Note-On (at delta `currentTime`) and Note-Off events, then resets
`currentTime` to 0 — so it is 0 for every note. -/
def buildEvents (tempo : ℚ) : List MidiNote → ℕ → List ℕ
  | [], _ => []
  | n :: rest, currentTime =>
    noteOnBytes n currentTime ++ noteOffBytes tempo n ++ buildEvents tempo rest 0

/-- The end-of-track meta-event with its delta: `00 FF 2F 00`. -/
def eotBytes : List ℕ := [0x00, 0xff, 0x2f, 0x00]

/-- The `trackEvents` array of `generateMIDI`: tempo event, note events,
end of track. -/
def trackEventBytes (notes : List MidiNote) (tempo : ℚ) : List ℕ :=
  tempoEventBytes tempo ++ buildEvents tempo notes 0 ++ eotBytes

/-- The four-byte track-chunk introducer "MTrk". -/
def mtrkMark : List ℕ := [0x4d, 0x54, 0x72, 0x6b]

/-- Embedding of `generateMIDI` (midiGenerator.js): header chunk, "MTrk",
four big-endian length bytes of the event array, then the events (the
final `Uint8Array`/Blob packaging preserves exactly these byte values). -/
def generateMIDI (notes : List MidiNote) (tempo : ℚ) : List ℕ :=
  headerBytes ++ mtrkMark ++ intToBytes (trackEventBytes notes tempo).length 4
    ++ trackEventBytes notes tempo

theorem intToBytes_length (num k : ℕ) : (intToBytes num k).length = k := by
  simp [intToBytes]

theorem auxGroups_of_le (v : ℕ) (h : v ≤ 127) : auxGroups v = [] := by
  rw [auxGroups, dif_neg (by omega)]

theorem varLen_of_le (v : ℕ) (h : v ≤ 127) : varLen v = [v] := by
  rw [varLen_eq, auxGroups_of_le v h, List.reverse_nil, List.nil_append,
    Nat.mod_eq_of_lt (by omega)]

theorem noteOnBytes_getLast (n : MidiNote) (ct : ℕ) :
    (noteOnBytes n ct).getLast? = some (toUint8 ⌊n.velocity * 100⌋) := by
  rw [noteOnBytes,
    show varLen ct ++ [0x90, toUint8 n.midiNumber, toUint8 ⌊n.velocity * 100⌋]
        = (varLen ct ++ [0x90, toUint8 n.midiNumber]) ++ [toUint8 ⌊n.velocity * 100⌋] from by
      simp,
    List.getLast?_concat]

/-! ### Claims C7 and C8 -/

/-- C7: on the empty composition at tempo 120 the encoder emits exactly the
14-byte header chunk, the 8-byte track-chunk header ("MTrk" plus the length
11), the 7-byte tempo meta-event (`00 FF 51 03` + 500000 = `07 A1 20`) and
the 4-byte end-of-track event — 33 bytes in total, a structurally valid
minimal MIDI file. -/
theorem generateMIDI_empty_structure :
    generateMIDI [] 120 =
      headerBytes ++ (mtrkMark ++ [0x00, 0x00, 0x00, 0x0b])
        ++ [0x00, 0xff, 0x51, 0x03, 0x07, 0xa1, 0x20] ++ [0x00, 0xff, 0x2f, 0x00] ∧
    headerBytes.length = 14 ∧ (mtrkMark ++ [0x00, 0x00, 0x00, 0x0b]).length = 8 ∧
    (generateMIDI [] 120).length = 33 := by
  have hmpq : (⌊(60000000 : ℚ) / 120⌋).toNat = 500000 := by
    rw [show ⌊(60000000 : ℚ) / 120⌋ = 500000 from by norm_num]
    rfl
  have htrk : trackEventBytes [] 120
      = [0x00, 0xff, 0x51, 0x03, 0x07, 0xa1, 0x20, 0x00, 0xff, 0x2f, 0x00] := by
    rw [trackEventBytes, tempoEventBytes, buildEvents, hmpq]
    decide
  rw [generateMIDI, htrk]
  refine ⟨by decide, by decide, by decide, by decide⟩

/-- C8 (counterexample): a note with the normalized velocity 0.999 gets the
velocity byte `Math.floor(0.999 * 100) = 99`, while the claimed
`round(velocity * 100)` is 100 — the code floors, it does not round. -/
theorem velocity_byte_round_cex :
    (noteOnBytes ⟨60, 999 / 1000, 1 / 2⟩ 0).getLast? = some 99 ∧
    round ((999 / 1000 : ℚ) * 100) = 100 ∧ (99 : ℕ) ≠ 100 := by
  refine ⟨?_, by rw [round_eq]; norm_num, by norm_num⟩
  rw [noteOnBytes_getLast, toUint8,
    show ⌊((⟨60, 999 / 1000, 1 / 2⟩ : MidiNote).velocity * 100 : ℚ)⌋ = 99 from by norm_num]
  rfl

/-- C8 (amended): the velocity byte written in a Note-On event is
`⌊velocity * 100⌋` (floor, not round), which for a normalized velocity in
`[0, 1]` is an integer in `[0, 100] ⊆ [0, 127]`. -/
theorem noteOn_velocity_byte (n : MidiNote) (ct : ℕ)
    (h0 : 0 ≤ n.velocity) (h1 : n.velocity ≤ 1) :
    (noteOnBytes n ct).getLast? = some (⌊n.velocity * 100⌋).toNat ∧
    (⌊n.velocity * 100⌋).toNat ≤ 127 := by
  have hfl0 : 0 ≤ ⌊n.velocity * 100⌋ := Int.floor_nonneg.mpr (by positivity)
  have hfl100 : ⌊n.velocity * 100⌋ ≤ 100 := by
    have h100 : n.velocity * 100 ≤ (100 : ℚ) := by nlinarith
    calc ⌊n.velocity * 100⌋ ≤ ⌊(100 : ℚ)⌋ := Int.floor_le_floor h100
    _ = 100 := by norm_num
  refine ⟨?_, by omega⟩
  rw [noteOnBytes_getLast, toUint8, Int.emod_eq_of_lt hfl0 (by omega)]

/-- C8 (witness): the amended theorem at velocity 1/2 — byte 50. -/
theorem noteOn_velocity_byte_witness :
    (noteOnBytes ⟨60, 1 / 2, 1 / 2⟩ 0).getLast? = some (⌊((1 : ℚ) / 2) * 100⌋).toNat ∧
    (⌊((1 : ℚ) / 2) * 100⌋).toNat ≤ 127 :=
  noteOn_velocity_byte ⟨60, 1 / 2, 1 / 2⟩ 0 (by norm_num) (by norm_num)

/-! ### Occurrences of the track introducer in the encoder output -/

/-- The byte pattern `pat` occurs in `l` at position `i`. -/
def occursAt (pat l : List ℕ) (i : ℕ) : Prop := (l.drop i).take pat.length = pat

instance (pat l : List ℕ) (i : ℕ) : Decidable (occursAt pat l i) :=
  inferInstanceAs (Decidable (_ = _))

/-- Number of positions at which `pat` occurs in `l`. -/
def countOccurrences (pat l : List ℕ) : ℕ :=
  (List.range l.length).countP (fun i => decide (occursAt pat l i))

/-- `mtrkMark` occurs nowhere in `l`. -/
def NoOcc (l : List ℕ) : Prop := ∀ i, ¬ occursAt mtrkMark l i

theorem occursAt_cons_succ (pat : List ℕ) (b : ℕ) (l : List ℕ) (i : ℕ) :
    occursAt pat (b :: l) (i + 1) ↔ occursAt pat l i := by
  simp [occursAt, List.drop_succ_cons]

/-- A window starting at a byte other than `0x4d` is not an occurrence. -/
theorem noWin₁ {a : ℕ} (t : List ℕ) (h : a ≠ 0x4d) : ¬ occursAt mtrkMark (a :: t) 0 := by
  intro heq
  have h2 : a :: t.take 3 = mtrkMark := heq
  rw [mtrkMark] at h2
  injection h2 with h1 _
  exact h h1

/-- A window whose second byte is not `0x54` is not an occurrence. -/
theorem noWin₂ {a b : ℕ} (t : List ℕ) (h : b ≠ 0x54) :
    ¬ occursAt mtrkMark (a :: b :: t) 0 := by
  intro heq
  have h2 : a :: b :: t.take 2 = mtrkMark := heq
  rw [mtrkMark] at h2
  injection h2 with _ h2
  injection h2 with h1 _
  exact h h1

/-- A window whose third byte is not `0x72` is not an occurrence. -/
theorem noWin₃ {a b c : ℕ} (t : List ℕ) (h : c ≠ 0x72) :
    ¬ occursAt mtrkMark (a :: b :: c :: t) 0 := by
  intro heq
  have h2 : a :: b :: c :: t.take 1 = mtrkMark := heq
  rw [mtrkMark] at h2
  injection h2 with _ h2
  injection h2 with _ h2
  injection h2 with h1 _
  exact h h1

/-- A window whose fourth byte is not `0x6b` is not an occurrence. -/
theorem noWin₄ {a b c d : ℕ} (t : List ℕ) (h : d ≠ 0x6b) :
    ¬ occursAt mtrkMark (a :: b :: c :: d :: t) 0 := by
  intro heq
  have h2 : a :: b :: c :: d :: t.take 0 = mtrkMark := heq
  rw [mtrkMark] at h2
  injection h2 with _ h2
  injection h2 with _ h2
  injection h2 with _ h2
  injection h2 with h1 _
  exact h h1

theorem noOcc_nil : NoOcc [] := by
  intro i h
  have h2 : ([] : List ℕ).take 4 = mtrkMark := by
    simpa [occursAt] using h
  simp [mtrkMark] at h2

theorem noOcc_cons {b : ℕ} {l : List ℕ} (h4 : ¬ occursAt mtrkMark (b :: l) 0)
    (hl : NoOcc l) : NoOcc (b :: l) := by
  intro i
  cases i with
  | zero => exact h4
  | succ j => exact fun h => hl j ((occursAt_cons_succ _ b l j).mp h)

theorem noOcc_hi_append {A l : List ℕ} (hA : ∀ b ∈ A, 128 ≤ b) (hl : NoOcc l) :
    NoOcc (A ++ l) := by
  induction A with
  | nil => simpa
  | cons a A ih =>
    rw [List.cons_append]
    refine noOcc_cons (noWin₁ _ ?_) (ih fun b hb => hA b (List.mem_cons_of_mem a hb))
    have := hA a (List.mem_cons_self a A)
    omega

/-- No occurrence of "MTrk" inside one note's event bytes followed by a
suffix that starts with a `0x00` delta byte and is itself occurrence-free:
every candidate window hits a structurally fixed byte (`0x90`, `0x80`,
`0x40`, `0x00`) or a high continuation byte that the pattern's bytes (all
below `0x80` and nonzero) cannot match. -/
theorem noOcc_noteSeg (n1 n2 v lo1 lo2 : ℕ) (hi1 hi2 : List ℕ) (R : List ℕ)
    (hhi1 : ∀ b ∈ hi1, 128 ≤ b) (hhi2 : ∀ b ∈ hi2, 128 ≤ b)
    (hR : NoOcc (0 :: R)) :
    NoOcc (hi1 ++ lo1 :: 0x90 :: n1 :: v
      :: (hi2 ++ lo2 :: 0x80 :: n2 :: 0x40 :: 0 :: R)) := by
  have m1 : NoOcc (0x40 :: 0 :: R) := noOcc_cons (noWin₁ _ (by norm_num)) hR
  have m2 : NoOcc (n2 :: 0x40 :: 0 :: R) := noOcc_cons (noWin₂ _ (by norm_num)) m1
  have m3 : NoOcc (0x80 :: n2 :: 0x40 :: 0 :: R) := noOcc_cons (noWin₁ _ (by norm_num)) m2
  have m4 : NoOcc (lo2 :: 0x80 :: n2 :: 0x40 :: 0 :: R) :=
    noOcc_cons (noWin₂ _ (by norm_num)) m3
  have m5 : NoOcc (hi2 ++ lo2 :: 0x80 :: n2 :: 0x40 :: 0 :: R) := noOcc_hi_append hhi2 m4
  have m6 : NoOcc (v :: (hi2 ++ lo2 :: 0x80 :: n2 :: 0x40 :: 0 :: R)) := by
    cases hi2 with
    | nil =>
      rw [List.nil_append] at m5 ⊢
      exact noOcc_cons (noWin₃ _ (by norm_num)) m5
    | cons h2 t2 =>
      refine noOcc_cons (noWin₂ _ ?_) m5
      have := hhi2 h2 (List.mem_cons_self h2 t2)
      omega
  have m7 : NoOcc (n1 :: v :: (hi2 ++ lo2 :: 0x80 :: n2 :: 0x40 :: 0 :: R)) := by
    cases hi2 with
    | nil =>
      rw [List.nil_append] at m6 ⊢
      exact noOcc_cons (noWin₄ _ (by norm_num)) m6
    | cons h2 t2 =>
      refine noOcc_cons (noWin₃ _ ?_) m6
      have := hhi2 h2 (List.mem_cons_self h2 t2)
      omega
  have m8 : NoOcc (0x90 :: n1 :: v :: (hi2 ++ lo2 :: 0x80 :: n2 :: 0x40 :: 0 :: R)) :=
    noOcc_cons (noWin₁ _ (by norm_num)) m7
  have m9 : NoOcc (lo1 :: 0x90 :: n1 :: v :: (hi2 ++ lo2 :: 0x80 :: n2 :: 0x40 :: 0 :: R)) :=
    noOcc_cons (noWin₂ _ (by norm_num)) m8
  exact noOcc_hi_append hhi1 m9

/-- The varLen decomposition used by the occurrence analysis: continuation
bytes (all at least `0x80`) followed by one final low byte. -/
theorem varLen_decomp (v : ℕ) :
    ∃ hi lo, varLen v = hi ++ [lo] ∧ ∀ b ∈ hi, 128 ≤ b :=
  ⟨(auxGroups v).reverse, v % 128, varLen_eq v,
   fun b hb => auxGroups_ge v b (List.mem_reverse.mp hb)⟩

/-- The note events followed by the end-of-track event always start with a
`0x00` delta byte. -/
theorem buildEvents_eot_cons (tempo : ℚ) (notes : List MidiNote) :
    ∃ R, buildEvents tempo notes 0 ++ eotBytes = 0 :: R := by
  cases notes with
  | nil => exact ⟨[0xff, 0x2f, 0x00], rfl⟩
  | cons n rest =>
    refine ⟨[0x90, toUint8 n.midiNumber, toUint8 ⌊n.velocity * 100⌋]
      ++ (noteOffBytes tempo n ++ (buildEvents tempo rest 0 ++ eotBytes)), ?_⟩
    rw [buildEvents, noteOnBytes, varLen_of_le 0 (by norm_num)]
    simp

theorem noOcc_buildEvents (tempo : ℚ) (notes : List MidiNote) (ct : ℕ) :
    NoOcc (buildEvents tempo notes ct ++ eotBytes) := by
  induction notes generalizing ct with
  | nil =>
    rw [buildEvents, List.nil_append, eotBytes]
    refine noOcc_cons (noWin₁ _ (by norm_num)) ?_
    refine noOcc_cons (noWin₁ _ (by norm_num)) ?_
    refine noOcc_cons (noWin₁ _ (by norm_num)) ?_
    exact noOcc_cons (noWin₁ _ (by norm_num)) noOcc_nil
  | cons n rest ih =>
    obtain ⟨R, hR⟩ := buildEvents_eot_cons tempo rest
    obtain ⟨hi1, lo1, hv1, hhi1⟩ := varLen_decomp ct
    obtain ⟨hi2, lo2, hv2, hhi2⟩ := varLen_decomp (durationTicks tempo n)
    have hRno : NoOcc (0 :: R) := hR ▸ ih 0
    have := noOcc_noteSeg (toUint8 n.midiNumber) (toUint8 n.midiNumber)
      (toUint8 ⌊n.velocity * 100⌋) lo1 lo2 hi1 hi2 R hhi1 hhi2 hRno
    rw [buildEvents, noteOnBytes, noteOffBytes, hv1, hv2]
    rw [List.append_assoc, List.append_assoc, hR]
    simpa [List.append_assoc] using this

/-- The event bytes of a track always start with the `0x00` delta of the
tempo event. -/
theorem trackEventBytes_cons (notes : List MidiNote) (tempo : ℚ) :
    ∃ t, trackEventBytes notes tempo = 0 :: t :=
  ⟨[0xff, 0x51, 0x03] ++ intToBytes (⌊(60000000 : ℚ) / tempo⌋).toNat 3
      ++ (buildEvents tempo notes 0 ++ eotBytes), by
    rw [trackEventBytes, tempoEventBytes]
    simp [List.append_assoc]⟩

/-- "MTrk" never occurs among the event bytes of a track. -/
theorem noOcc_trackEventBytes (notes : List MidiNote) (tempo : ℚ) :
    NoOcc (trackEventBytes notes tempo) := by
  obtain ⟨R, hR⟩ := buildEvents_eot_cons tempo notes
  have hRno : NoOcc (0 :: R) := hR ▸ noOcc_buildEvents tempo notes 0
  have h3 : intToBytes (⌊(60000000 : ℚ) / tempo⌋).toNat 3
      = [((⌊(60000000 : ℚ) / tempo⌋).toNat >>> 16) % 256,
         ((⌊(60000000 : ℚ) / tempo⌋).toNat >>> 8) % 256,
         (⌊(60000000 : ℚ) / tempo⌋).toNat % 256] := rfl
  rw [trackEventBytes, tempoEventBytes, h3, List.append_assoc, hR]
  have k1 : NoOcc ((⌊(60000000 : ℚ) / tempo⌋).toNat % 256 :: 0 :: R) :=
    noOcc_cons (noWin₂ _ (by norm_num)) hRno
  have k2 : NoOcc (((⌊(60000000 : ℚ) / tempo⌋).toNat >>> 8) % 256
      :: (⌊(60000000 : ℚ) / tempo⌋).toNat % 256 :: 0 :: R) :=
    noOcc_cons (noWin₃ _ (by norm_num)) k1
  have k3 : NoOcc (((⌊(60000000 : ℚ) / tempo⌋).toNat >>> 16) % 256
      :: ((⌊(60000000 : ℚ) / tempo⌋).toNat >>> 8) % 256
      :: (⌊(60000000 : ℚ) / tempo⌋).toNat % 256 :: 0 :: R) :=
    noOcc_cons (noWin₄ _ (by norm_num)) k2
  have k4 : NoOcc (0x03 :: ((⌊(60000000 : ℚ) / tempo⌋).toNat >>> 16) % 256
      :: ((⌊(60000000 : ℚ) / tempo⌋).toNat >>> 8) % 256
      :: (⌊(60000000 : ℚ) / tempo⌋).toNat % 256 :: 0 :: R) :=
    noOcc_cons (noWin₁ _ (by norm_num)) k3
  have k5 : NoOcc (0x51 :: 0x03 :: ((⌊(60000000 : ℚ) / tempo⌋).toNat >>> 16) % 256
      :: ((⌊(60000000 : ℚ) / tempo⌋).toNat >>> 8) % 256
      :: (⌊(60000000 : ℚ) / tempo⌋).toNat % 256 :: 0 :: R) :=
    noOcc_cons (noWin₁ _ (by norm_num)) k4
  have k6 : NoOcc (0xff :: 0x51 :: 0x03 :: ((⌊(60000000 : ℚ) / tempo⌋).toNat >>> 16) % 256
      :: ((⌊(60000000 : ℚ) / tempo⌋).toNat >>> 8) % 256
      :: (⌊(60000000 : ℚ) / tempo⌋).toNat % 256 :: 0 :: R) :=
    noOcc_cons (noWin₁ _ (by norm_num)) k5
  have k7 : NoOcc (0x00 :: 0xff :: 0x51 :: 0x03
      :: ((⌊(60000000 : ℚ) / tempo⌋).toNat >>> 16) % 256
      :: ((⌊(60000000 : ℚ) / tempo⌋).toNat >>> 8) % 256
      :: (⌊(60000000 : ℚ) / tempo⌋).toNat % 256 :: 0 :: R) :=
    noOcc_cons (noWin₁ _ (by norm_num)) k6
  simpa using k7

theorem noOcc_tail {b : ℕ} {l : List ℕ} (h : NoOcc (b :: l)) : NoOcc l :=
  fun i hx => h (i + 1) ((occursAt_cons_succ _ b l i).mpr hx)

theorem countOcc_cons (b : ℕ) (l : List ℕ) :
    countOccurrences mtrkMark (b :: l)
      = (if occursAt mtrkMark (b :: l) 0 then 1 else 0) + countOccurrences mtrkMark l := by
  unfold countOccurrences
  rw [List.length_cons, List.range_succ_eq_map, List.countP_cons, List.countP_map]
  have hc : ∀ i ∈ List.range l.length,
      (((fun i => decide (occursAt mtrkMark (b :: l) i)) ∘ Nat.succ) i = true
        ↔ (fun i => decide (occursAt mtrkMark l i)) i = true) := by
    intro i _
    simp [Function.comp, Nat.succ_eq_add_one, occursAt_cons_succ]
  rw [List.countP_congr hc]
  simp only [decide_eq_true_eq]
  omega

theorem countOcc_zero {l : List ℕ} (h : NoOcc l) : countOccurrences mtrkMark l = 0 := by
  unfold countOccurrences
  exact List.countP_eq_zero.mpr fun i _ => by simpa using h i

/-- The window starting exactly at "MTrk" is an occurrence. -/
theorem winHere (t : List ℕ) : occursAt mtrkMark (0x4d :: 0x54 :: 0x72 :: 0x6b :: t) 0 := rfl

/-- The four big-endian length bytes of a value below `2^32` other than
`0x4d54726b` do not spell "MTrk". -/
theorem noWinL {n : ℕ} (t : List ℕ) (hlt : n < 2 ^ 32) (hne : n ≠ 0x4d54726b) :
    ¬ occursAt mtrkMark
      ((n >>> 24) % 256 :: (n >>> 16) % 256 :: (n >>> 8) % 256 :: n % 256 :: t) 0 := by
  intro heq
  have h2 : (n >>> 24) % 256 :: (n >>> 16) % 256 :: (n >>> 8) % 256 :: n % 256 :: t.take 0
      = mtrkMark := heq
  rw [mtrkMark] at h2
  injection h2 with e1 h2
  injection h2 with e2 h2
  injection h2 with e3 h2
  injection h2 with e4 _
  simp only [Nat.shiftRight_eq_div_pow] at e1 e2 e3
  norm_num at e1 e2 e3
  omega

/-- The occurrence count of "MTrk" in the encoder output: exactly one (the
real track introducer) plus one more exactly when the four length bytes
themselves spell "MTrk". -/
theorem countOcc_generateMIDI (notes : List MidiNote) (tempo : ℚ) :
    countOccurrences mtrkMark (generateMIDI notes tempo)
      = 1 + (if occursAt mtrkMark
            (((trackEventBytes notes tempo).length >>> 24) % 256
              :: ((trackEventBytes notes tempo).length >>> 16) % 256
              :: ((trackEventBytes notes tempo).length >>> 8) % 256
              :: (trackEventBytes notes tempo).length % 256
              :: trackEventBytes notes tempo) 0
          then 1 else 0) := by
  obtain ⟨T', hT⟩ := trackEventBytes_cons notes tempo
  have hT'no : NoOcc T' := noOcc_tail (hT ▸ noOcc_trackEventBytes notes tempo)
  have hbytes : generateMIDI notes tempo
      = 0x4d :: 0x54 :: 0x68 :: 0x64 :: 0x00 :: 0x00 :: 0x00 :: 0x06 :: 0x00 :: 0x00
        :: 0x00 :: 0x01 :: 0x00 :: 0x60 :: 0x4d :: 0x54 :: 0x72 :: 0x6b
        :: ((trackEventBytes notes tempo).length >>> 24) % 256
        :: ((trackEventBytes notes tempo).length >>> 16) % 256
        :: ((trackEventBytes notes tempo).length >>> 8) % 256
        :: (trackEventBytes notes tempo).length % 256
        :: trackEventBytes notes tempo := rfl
  rw [hbytes]
  generalize (trackEventBytes notes tempo).length = m
  rw [hT]
  simp only [countOcc_cons]
  rw [countOcc_zero hT'no]
  rw [if_pos (winHere _)]
  rw [if_neg (noWin₁ (a := 0x54) _ (by norm_num))]
  rw [if_neg (noWin₁ (a := 0x68) _ (by norm_num))]
  rw [if_neg (noWin₁ (a := 0x64) _ (by norm_num))]
  rw [if_neg (noWin₁ (a := 0x00) _ (by norm_num))]
  rw [if_neg (noWin₁ (a := 0x00) _ (by norm_num))]
  rw [if_neg (noWin₁ (a := 0x00) _ (by norm_num))]
  rw [if_neg (noWin₁ (a := 0x06) _ (by norm_num))]
  rw [if_neg (noWin₁ (a := 0x00) _ (by norm_num))]
  rw [if_neg (noWin₁ (a := 0x00) _ (by norm_num))]
  rw [if_neg (noWin₁ (a := 0x00) _ (by norm_num))]
  rw [if_neg (noWin₁ (a := 0x01) _ (by norm_num))]
  rw [if_neg (noWin₁ (a := 0x00) _ (by norm_num))]
  rw [if_neg (noWin₁ (a := 0x60) _ (by norm_num))]
  rw [if_neg (noWin₁ (a := 0x54) _ (by norm_num))]
  rw [if_neg (noWin₁ (a := 0x72) _ (by norm_num))]
  rw [if_neg (noWin₁ (a := 0x6b) _ (by norm_num))]
  rw [if_neg (noWin₁ (a := 0x00) _ (by norm_num))]
  rw [if_neg (noWin₃ (c := 0x68) _ (by norm_num))]
  rw [if_neg (noWin₄ (d := 0x00) _ (by norm_num))]
  rw [if_neg (noWin₃ (c := 0x00) _ (by norm_num))]
  rw [if_neg (noWin₂ (b := 0x00) _ (by norm_num))]
  simp only [Nat.zero_add, Nat.add_zero]

/-! ### Claim C6 -/

set_option maxRecDepth 8192 in
/-- C6 (amended): for every composition and tempo whose encoded track-event
byte count is below `2^32` and different from `0x4d54726b`, the encoder
output begins with `4D 54 68 64`, contains exactly one occurrence of the
track introducer `4D 54 72 6B`, and the 4-byte big-endian length declared
immediately after that introducer equals the number of event bytes that
follow it. (When the event byte count is exactly `0x4d54726b` the length
field itself spells "MTrk" — see the counterexample.) -/
theorem generateMIDI_structure (notes : List MidiNote) (tempo : ℚ)
    (hlen : (trackEventBytes notes tempo).length < 2 ^ 32)
    (hmagic : (trackEventBytes notes tempo).length ≠ 0x4d54726b) :
    (generateMIDI notes tempo).take 4 = [0x4d, 0x54, 0x68, 0x64] ∧
    countOccurrences mtrkMark (generateMIDI notes tempo) = 1 ∧
    beValue (((generateMIDI notes tempo).drop 18).take 4)
      = ((generateMIDI notes tempo).drop 22).length := by
  have htake : (generateMIDI notes tempo).take 4 = [0x4d, 0x54, 0x68, 0x64] := rfl
  have hdrop18 : (generateMIDI notes tempo).drop 18
      = ((trackEventBytes notes tempo).length >>> 24) % 256
        :: ((trackEventBytes notes tempo).length >>> 16) % 256
        :: ((trackEventBytes notes tempo).length >>> 8) % 256
        :: (trackEventBytes notes tempo).length % 256
        :: trackEventBytes notes tempo := rfl
  have hdrop22 : (generateMIDI notes tempo).drop 22 = trackEventBytes notes tempo := rfl
  refine ⟨htake, ?_, ?_⟩
  · rw [countOcc_generateMIDI, if_neg (noWinL _ hlen hmagic)]
  · rw [hdrop18, hdrop22]
    have hbe : beValue
        (List.take 4 (((trackEventBytes notes tempo).length >>> 24) % 256
          :: ((trackEventBytes notes tempo).length >>> 16) % 256
          :: ((trackEventBytes notes tempo).length >>> 8) % 256
          :: (trackEventBytes notes tempo).length % 256
          :: trackEventBytes notes tempo))
        = (((0 * 256 + ((trackEventBytes notes tempo).length >>> 24) % 256) * 256
          + ((trackEventBytes notes tempo).length >>> 16) % 256) * 256
          + ((trackEventBytes notes tempo).length >>> 8) % 256) * 256
          + (trackEventBytes notes tempo).length % 256 := rfl
    rw [hbe]
    simp only [Nat.shiftRight_eq_div_pow]
    norm_num
    omega

theorem trackEventBytes_empty_length : (trackEventBytes [] 120).length = 11 := by
  rw [trackEventBytes, tempoEventBytes, buildEvents]
  simp [intToBytes_length, eotBytes]

/-- C6 (witness): the amended theorem on the empty composition at tempo
120, whose track has 11 event bytes. -/
theorem generateMIDI_structure_witness :
    (generateMIDI [] 120).take 4 = [0x4d, 0x54, 0x68, 0x64] ∧
    countOccurrences mtrkMark (generateMIDI [] 120) = 1 ∧
    beValue (((generateMIDI [] 120).drop 18).take 4)
      = ((generateMIDI [] 120).drop 22).length :=
  generateMIDI_structure [] 120
    (by rw [trackEventBytes_empty_length]; norm_num)
    (by rw [trackEventBytes_empty_length]; norm_num)

/-- A note whose fields make its event bytes 8 bytes long (duration 0
seconds, so the Note-Off delta is `varLen 0 = [0]`). -/
def bigNote : MidiNote := ⟨60, 1 / 2, 0⟩

/-- A composition of 162 172 492 such notes: its track then has exactly
`11 + 8 * 162172492 = 0x4d54726b` event bytes. -/
def bigNotes : List MidiNote := List.replicate 162172492 bigNote

theorem durationTicks_bigNote : durationTicks 120 bigNote = 0 := by
  rw [durationTicks]
  norm_num [bigNote, ticksPerSecond]

theorem buildEvents_big_length (m : ℕ) :
    (buildEvents 120 (List.replicate m bigNote) 0).length = 8 * m := by
  induction m with
  | zero => rfl
  | succ k ih =>
    rw [List.replicate_succ, buildEvents, List.length_append, List.length_append, ih,
      noteOnBytes, noteOffBytes, durationTicks_bigNote, varLen_of_le 0 (by norm_num)]
    simp [List.length_append]
    omega

theorem trackEventBytes_big_length :
    (trackEventBytes bigNotes 120).length = 0x4d54726b := by
  rw [trackEventBytes, bigNotes, List.length_append, List.length_append,
    buildEvents_big_length, tempoEventBytes]
  simp [intToBytes_length, eotBytes]

/-- C6 (counterexample): on the 162 172 492-note composition `bigNotes` at
tempo 120 the track's event byte count is exactly `0x4d54726b`, so the
declared-length field itself spells "MTrk" and the output contains two
occurrences of `4D 54 72 6B` — the claim's "exactly one occurrence of the
track-chunk introducer" fails for this composition. -/
theorem mtrk_double_occurrence_cex :
    countOccurrences mtrkMark (generateMIDI bigNotes 120) ≠ 1 := by
  rw [countOcc_generateMIDI, trackEventBytes_big_length,
    if_pos (show occursAt mtrkMark
      ((1297379947 >>> 24) % 256 :: (1297379947 >>> 16) % 256 :: (1297379947 >>> 8) % 256
        :: 1297379947 % 256 :: trackEventBytes bigNotes 120) 0
      from winHere (trackEventBytes bigNotes 120))]
  norm_num

/-- C10 (witness): the range theorem applied at the deep-indentation line,
discharging the `127 < midiNote` hypothesis by the reachability part of the
theorem itself. -/
theorem midiNote_range_witness :
    midiToNoteName (midiNote deepIndentLine) = "C4" :=
  (midiNote_range_and_fallback.1 deepIndentLine).2.1 midiNote_range_and_fallback.2

end Code2Score
